import Mathlib

/-!
Shallow embedding of the `variable_frequencies` repository
(`py_variable_counter.py`, `r_variable_counter.py`, `combiner.py`).

Text buffers are `List Char`.  Each compiled regular expression of the source
is embedded as a deterministic matcher `List Char → Option (result × rest)`
that attempts an anchored match at the head of the buffer, exactly mirroring
the backtracking behaviour of the Python `re` engine on that pattern, and
`re.finditer` is embedded as `scanAll`, which tries the matcher at every
position, resuming after the end of each successful (never empty) match and
advancing one character after each failure.  Python dictionaries are embedded
as insertion-ordered association lists, and `sorted(..., reverse=True)` /
`list.sort(..., reverse=True)` as a stable insertion sort on the key.
-/

namespace VarFreq

/-- Python `\s` on the ASCII range (the whitespace the scanned patterns use). -/
def isSpace (c : Char) : Bool :=
  c = ' ' || c = '\t' || c = '\n' || c = '\r' || c = '\x0b' || c = '\x0c'

/-- First character of a Python identifier: `[a-zA-Z_]`. -/
def pyStart (c : Char) : Bool := c.isAlpha || c = '_'

/-- Continuation character of a Python identifier: `[a-zA-Z0-9_]`. -/
def pyCont (c : Char) : Bool := c.isAlpha || c.isDigit || c = '_'

/-- First character of an R identifier: `[a-zA-Z]`. -/
def rStart (c : Char) : Bool := c.isAlpha

/-- Continuation character of an R identifier: `[a-zA-Z0-9_.]`. -/
def rCont (c : Char) : Bool := c.isAlpha || c.isDigit || c = '_' || c = '.'

/-- Greedy match of one identifier at the head of the buffer:
returns the identifier characters and the rest of the buffer. -/
def takeIdent (first cont : Char → Bool) : List Char → Option (List Char × List Char)
  | [] => none
  | c :: cs =>
    if first c then some (c :: cs.takeWhile cont, cs.dropWhile cont) else none

/-- Embedding of `re.finditer`: try the matcher at every position, left to
right; a successful match is recorded and scanning resumes after its end, a
failure advances one character.  The fuel argument (instantiated with the
buffer length by all callers) makes the recursion structural; every matcher
consumes at least one character, so the fuel never runs out. -/
def scanAll (m : List Char → Option (α × List Char)) : Nat → List Char → List α
  | 0, _ => []
  | _ + 1, [] => []
  | f + 1, c :: cs =>
    match m (c :: cs) with
    | some (a, r) => a :: scanAll m f r
    | none => scanAll m f cs

/-- Common shape of the identifier-prefixed patterns: greedy identifier,
optional whitespace, then a pattern-specific operator check on the rest.
(No backtracking is needed here: shortening the greedy identifier or the
greedy whitespace would put an identifier character where each operator
expects its first character, and no operator starts with one.) -/
def matchIdentThen (first cont : Char → Bool) (check : List Char → Option (List Char))
    (s : List Char) : Option (String × List Char) :=
  match takeIdent first cont s with
  | none => none
  | some (v, r1) =>
    match check (r1.dropWhile isSpace) with
    | some r => some (v.asString, r)
    | none => none

/-! ### Python patterns (`get_python_patterns`) -/

/-- Operator of `EQUALS_ASSIGN`: `=` with a negative lookahead rejecting
`==`. -/
def checkEqualsPy : List Char → Option (List Char)
  | '=' :: '=' :: _ => none
  | '=' :: r => some r
  | _ => none

/-- Operator of the walrus patterns: `:=`. -/
def checkWalrus : List Char → Option (List Char)
  | ':' :: '=' :: r => some r
  | _ => none

/-- Pattern `EQUALS_ASSIGN`: identifier, optional whitespace, `=`, with a
negative lookahead rejecting `==`. -/
def matchEqualsPy : List Char → Option (String × List Char) :=
  matchIdentThen pyStart pyCont checkEqualsPy

/-- Pattern `WALRUS_ASSIGN`: identifier, optional whitespace, `:=`. -/
def matchWalrusPy : List Char → Option (String × List Char) :=
  matchIdentThen pyStart pyCont checkWalrus

/-- Operator alternation of `AUGMENTED_ASSIGN`:
`[+\-*/%@&|^]= | //= | >>= | <<= | **=`, tried in the regex's branch order. -/
def matchAugOp : List Char → Option (List Char)
  | '/' :: '/' :: '=' :: r => some r
  | '>' :: '>' :: '=' :: r => some r
  | '<' :: '<' :: '=' :: r => some r
  | '*' :: '*' :: '=' :: r => some r
  | c :: '=' :: r =>
    if c = '+' || c = '-' || c = '*' || c = '/' || c = '%' || c = '@' ||
       c = '&' || c = '|' || c = '^'
    then some r else none
  | _ => none

/-- Pattern `AUGMENTED_ASSIGN`: identifier, optional whitespace, compound
assignment operator. -/
def matchAug : List Char → Option (String × List Char) :=
  matchIdentThen pyStart pyCont matchAugOp

/-- Repetition `(\s*,\s*identifier)+` of `MULTI_ASSIGN`, parsed greedily; a
failed further repetition consumes nothing.  (Backtracking on the repetition
count can never help: after a successful repetition the next non-space
character is `,`, never `=`.) -/
def multiReps : Nat → List Char → List String → List String × List Char
  | 0, s, acc => (acc, s)
  | f + 1, s, acc =>
    match s.dropWhile isSpace with
    | ',' :: s2 =>
      match takeIdent pyStart pyCont (s2.dropWhile isSpace) with
      | some (v, r) => multiReps f r (acc ++ [v.asString])
      | none => (acc, s)
    | _ => (acc, s)

/-- Pattern `MULTI_ASSIGN`: a comma-separated run of two or more identifiers,
optional whitespace, `=`.  The source extracts the identifiers of the captured
run with `VAR_EXTRACTOR`; since the captured text consists exactly of the
maximal identifiers separated by whitespace and commas, that extraction
returns exactly the listed identifiers, which the matcher yields directly. -/
def matchMulti (s : List Char) : Option (List String × List Char) :=
  match takeIdent pyStart pyCont s with
  | none => none
  | some (v, r1) =>
    if (multiReps r1.length r1 []).1.isEmpty then none
    else
      match (multiReps r1.length r1 []).2.dropWhile isSpace with
      | '=' :: r3 => some (v.asString :: (multiReps r1.length r1 []).1, r3)
      | _ => none

/-- Backtracking tail of `FOR_LOOP`: given the reversed greedy identifier and
the rest of the buffer, try `\s* in` after the identifier, shortening the
identifier from the right (returning its characters to the buffer) until the
literal `in` matches; the identifier must stay nonempty. -/
def forBacktrack : List Char → List Char → Option (String × List Char)
  | [], _ => none
  | c :: idRev, rest =>
    match rest.dropWhile isSpace with
    | 'i' :: 'n' :: r => some ((c :: idRev).reverse.asString, r)
    | _ => forBacktrack idRev (c :: rest)

/-- Pattern `FOR_LOOP`: literal `for`, optional whitespace, identifier,
optional whitespace, literal `in` (with the regex's backtracking over the
greedy identifier). -/
def matchFor : List Char → Option (String × List Char)
  | 'f' :: 'o' :: 'r' :: s =>
    match takeIdent pyStart pyCont (s.dropWhile isSpace) with
    | none => none
    | some (v, r1) => forBacktrack v.reverse r1
  | _ => none

/-- Keyword denylist of `analyze_python_file` for the equals rule. -/
def pyDenylist : List String :=
  ["if", "while", "for", "elif", "return", "and", "or", "not", "is", "in",
   "None", "True", "False"]

/-- Occurrences counted by the equals rule of `analyze_python_file`
(matches whose variable is in the keyword denylist are skipped). -/
def pyEqualsOccs (s : List Char) : List String :=
  (scanAll matchEqualsPy s.length s).filter (fun v => !(pyDenylist.contains v))

/-- Occurrences counted by the walrus rule of `analyze_python_file`. -/
def pyWalrusOccs (s : List Char) : List String := scanAll matchWalrusPy s.length s

/-- Occurrences counted by the multiple-assignment rule of
`analyze_python_file` (all identifiers of each matched run, in order). -/
def pyMultiOccs (s : List Char) : List String := (scanAll matchMulti s.length s).flatten

/-- Occurrences counted by the augmented-assignment rule of
`analyze_python_file`. -/
def pyAugOccs (s : List Char) : List String := scanAll matchAug s.length s

/-- Occurrences counted by the for-loop rule of `analyze_python_file`. -/
def pyForOccs (s : List Char) : List String := scanAll matchFor s.length s

/-- All occurrences counted by `analyze_python_file` on one buffer, in the
order the source increments its `local_counts` dictionary. -/
def pyAllOccs (s : List Char) : List String :=
  pyEqualsOccs s ++ pyWalrusOccs s ++ pyMultiOccs s ++ pyAugOccs s ++ pyForOccs s

/-! ### Counting dictionaries -/

/-- Embedding of `counts[var] = counts.get(var, 0) + count` on an
insertion-ordered association list. -/
def addCount : List (String × Nat) → String × Nat → List (String × Nat)
  | [], p => [p]
  | (k, n) :: rest, p =>
    if k = p.1 then (k, n + p.2) :: rest else (k, n) :: addCount rest p

/-- Tally a list of occurrences into a dictionary, one increment each, in
order (the per-file `local_counts` loop bodies). -/
def tally (init : List (String × Nat)) (occs : List String) : List (String × Nat) :=
  occs.foldl (fun m v => addCount m (v, 1)) init

/-- The per-file variable counts of `analyze_python_file` on one buffer. -/
def scanPython (s : List Char) : List (String × Nat) := tally [] (pyAllOccs s)

/-! ### R patterns (`get_r_patterns`) -/

/-- Operator of `R_ASSIGN`: `<-`. -/
def checkRAssign : List Char → Option (List Char)
  | '<' :: '-' :: r => some r
  | _ => none

/-- Operator of the R `EQUALS_ASSIGN`: a bare `=`
(no lookahead excluding `==`). -/
def checkEqualsR : List Char → Option (List Char)
  | '=' :: r => some r
  | _ => none

/-- Pattern `R_ASSIGN`: R identifier, optional whitespace, `<-`. -/
def matchRAssign : List Char → Option (String × List Char) :=
  matchIdentThen rStart rCont checkRAssign

/-- R pattern `WALRUS_ASSIGN`: R identifier, optional whitespace, `:=`. -/
def matchWalrusR : List Char → Option (String × List Char) :=
  matchIdentThen rStart rCont checkWalrus

/-- R pattern `EQUALS_ASSIGN`: R identifier, optional whitespace, `=`
(no lookahead excluding `==`). -/
def matchEqualsR : List Char → Option (String × List Char) :=
  matchIdentThen rStart rCont checkEqualsR

/-- Pattern `MUTATE_PATTERN`: literal `mutate`, optional whitespace, `(`,
lazily captured content up to the first `)` (DOTALL), `)`. -/
def matchMutate : List Char → Option (List Char × List Char)
  | 'm' :: 'u' :: 't' :: 'a' :: 't' :: 'e' :: s =>
    match s.dropWhile isSpace with
    | '(' :: s2 =>
      match s2.dropWhile (fun c => c != ')') with
      | ')' :: r => some (s2.takeWhile (fun c => c != ')'), r)
      | _ => none
    | _ => none
  | _ => none

/-- Occurrences counted by the `<-` rule of `analyze_r_file`. -/
def rAssignOccs (s : List Char) : List String := scanAll matchRAssign s.length s

/-- Occurrences counted by the walrus rule of `analyze_r_file`. -/
def rWalrusOccs (s : List Char) : List String := scanAll matchWalrusR s.length s

/-- Occurrences of the equals pattern on one buffer (`analyze_r_file` applies
it only to the captured content of each `mutate(...)` block). -/
def rEqualsOccs (s : List Char) : List String := scanAll matchEqualsR s.length s

/-- Captured contents of the `mutate(...)` blocks of one buffer. -/
def mutateContents (s : List Char) : List (List Char) := scanAll matchMutate s.length s

/-- All occurrences counted by `analyze_r_file` on one buffer, in the order
the source increments its `local_counts` dictionary. -/
def rAllOccs (s : List Char) : List String :=
  rAssignOccs s ++ rWalrusOccs s ++ ((mutateContents s).map rEqualsOccs).flatten

/-- The per-file variable counts of `analyze_r_file` on one buffer. -/
def scanR (s : List Char) : List (String × Nat) := tally [] (rAllOccs s)

/-! ### File scanners -/

/-- Embedding of `analyze_python_file`: the file read is modelled as an
`Option` buffer; a failed read (the `except` branch) yields an empty mapping
and a false success flag, a successful read yields the pattern counts and a
true flag. -/
def analyze_python_file (contents : Option (List Char)) : List (String × Nat) × Bool :=
  match contents with
  | some content => (scanPython content, true)
  | none => ([], false)

/-- Embedding of `analyze_r_file`, same read model. -/
def analyze_r_file (contents : Option (List Char)) : List (String × Nat) × Bool :=
  match contents with
  | some content => (scanR content, true)
  | none => ([], false)

/-- Occurrences a Python file contributes (none when the read fails). -/
def pyFileOccs : Option (List Char) → List String
  | some content => pyAllOccs content
  | none => []

/-- Occurrences an R file contributes (none when the read fails). -/
def rFileOccs : Option (List Char) → List String
  | some content => rAllOccs content
  | none => []

/-! ### Stable descending sort (Python `sorted`/`list.sort` with
`reverse=True`) -/

/-- Stable descending insertion: the new element (earlier in the input) is
placed before the first element whose key is not greater, so equal keys keep
input order. -/
def insKey (key : α → Nat) (p : α) : List α → List α
  | [] => [p]
  | q :: qs => if key p < key q then q :: insKey key p qs else p :: q :: qs

/-- Stable sort by key descending, the embedding of Python's stable
`sorted(..., key=..., reverse=True)`. -/
def sortKeyDesc (key : α → Nat) : List α → List α
  | [] => []
  | x :: xs => insKey key x (sortKeyDesc key xs)

/-- The ranking sort of `count_variables`:
`sorted(counts.items(), key=lambda x: x[1], reverse=True)`. -/
def sortedByCount (l : List (String × Nat)) : List (String × Nat) :=
  sortKeyDesc (fun p => p.2) l

/-! ### Aggregator (`count_variables`) -/

/-- Fold one file's local counts into the global dictionary
(`counts[var] = counts.get(var, 0) + count`, in the local dictionary's
insertion order). -/
def mergeCounts (g : List (String × Nat)) (f : List (String × Nat)) : List (String × Nat) :=
  f.foldl addCount g

/-- One step of the file loop of `count_variables`: analyze the file, merge
its counts, append its path to the processed list when the read succeeded. -/
def analyzeStep (analyze : Option (List Char) → List (String × Nat) × Bool)
    (st : List (String × Nat) × List String) (f : String × Option (List Char)) :
    List (String × Nat) × List String :=
  (mergeCounts st.1 (analyze f.2).1,
   if (analyze f.2).2 then st.2 ++ [f.1] else st.2)

/-- The global dictionary and processed-file list after the file loop of
`count_variables`, for a traversal-ordered list of (path, read result). -/
def foldState (analyze : Option (List Char) → List (String × Nat) × Bool)
    (files : List (String × Option (List Char))) :
    List (String × Nat) × List String :=
  files.foldl (analyzeStep analyze) ([], [])

/-- Embedding of `count_variables`: the sorted ranking and the processed-file
list. -/
def count_vars (analyze : Option (List Char) → List (String × Nat) × Bool)
    (files : List (String × Option (List Char))) :
    List (String × Nat) × List String :=
  (sortedByCount (foldState analyze files).1, (foldState analyze files).2)

/-- `count_variables` of `py_variable_counter.py`. -/
def count_variables_py (files : List (String × Option (List Char))) :
    List (String × Nat) × List String :=
  count_vars analyze_python_file files

/-- `count_variables` of `r_variable_counter.py`. -/
def count_variables_r (files : List (String × Option (List Char))) :
    List (String × Nat) × List String :=
  count_vars analyze_r_file files

/-! ### Cross-language combiner (`combiner.py`) -/

/-- Dictionary lookup with default 0 (`counts.get(var, 0)`; also `dict(...)`
lookup for the shared variables, whose keys are present). -/
def lookupD : List (String × Nat) → String → Nat
  | [], _ => 0
  | (k, n) :: rest, v => if k = v then n else lookupD rest v

/-- Embedding of `find_shared_variables`: for each identifier of the set
intersection (enumerated in the iteration order of the Python set, passed here
as `order`), look up both counts, then stably sort by total count
descending. -/
def find_shared_variables (py r : List (String × Nat)) (order : List String) :
    List (String × Nat × Nat) :=
  sortKeyDesc (fun t => t.2.1 + t.2.2)
    (order.map (fun v => (v, lookupD py v, lookupD r v)))

/-- Sum of all counts of a dictionary or ranking. -/
def sumCounts (m : List (String × Nat)) : Nat := (m.map Prod.snd).sum

/-- Validity of a Python identifier as a character list. -/
def validPyIdent : List Char → Bool
  | [] => false
  | c :: cs => pyStart c && cs.all pyCont

/-- Validity of an R identifier as a character list. -/
def validRIdent : List Char → Bool
  | [] => false
  | c :: cs => rStart c && cs.all rCont

/-! ### Lemmas: counting dictionaries -/

theorem lookupD_addCount (g : List (String × Nat)) (p : String × Nat) (v : String) :
    lookupD (addCount g p) v = lookupD g v + (if p.1 = v then p.2 else 0) := by
  induction g with
  | nil =>
    by_cases h : p.1 = v <;> simp [addCount, lookupD, h]
  | cons q rest ih =>
    obtain ⟨k, n⟩ := q
    by_cases hk : k = p.1 <;> by_cases hv : k = v
    · have hp : p.1 = v := hk.symm.trans hv
      simp [addCount, lookupD, hk, hv, hp]
    · have hp : ¬ p.1 = v := fun h => hv (hk.trans h)
      simp [addCount, lookupD, hk, hv, hp]
    · have hp : ¬ p.1 = v := fun h => hk (hv.trans h.symm)
      have hk2 : ¬ v = p.1 := fun hh => hp hh.symm
      simp [addCount, lookupD, hk, hv, hp, hk2]
    · simp [addCount, lookupD, hk, hv, ih]

theorem sumCounts_addCount (g : List (String × Nat)) (p : String × Nat) :
    sumCounts (addCount g p) = sumCounts g + p.2 := by
  induction g with
  | nil => simp [addCount, sumCounts]
  | cons q rest ih =>
    obtain ⟨k, n⟩ := q
    by_cases hk : k = p.1
    · simp [addCount, sumCounts, hk]
      omega
    · simp [addCount, sumCounts, hk] at *
      omega

theorem keys_addCount (g : List (String × Nat)) (p : String × Nat) :
    (addCount g p).map Prod.fst =
      if p.1 ∈ g.map Prod.fst then g.map Prod.fst else g.map Prod.fst ++ [p.1] := by
  induction g with
  | nil => simp [addCount]
  | cons q rest ih =>
    obtain ⟨k, n⟩ := q
    by_cases hk : k = p.1
    · simp [addCount, hk]
    · have hne : ¬ p.1 = k := fun h => hk h.symm
      by_cases hm : p.1 ∈ rest.map Prod.fst <;>
        simp [addCount, hk, hm, hne, ih]

theorem nodupKeys_addCount (g : List (String × Nat)) (p : String × Nat)
    (h : (g.map Prod.fst).Nodup) : ((addCount g p).map Prod.fst).Nodup := by
  rw [keys_addCount]
  by_cases hm : p.1 ∈ g.map Prod.fst
  · simpa [hm]
  · simp [hm, List.nodup_append, h]

theorem lookupD_eq_zero_of_not_mem (g : List (String × Nat)) (v : String)
    (h : v ∉ g.map Prod.fst) : lookupD g v = 0 := by
  induction g with
  | nil => rfl
  | cons q rest ih =>
    obtain ⟨k, n⟩ := q
    have hkv : ¬ k = v := by
      intro he
      exact h (by simp [he])
    have hrest : v ∉ rest.map Prod.fst := by
      intro hm
      exact h (by simp [hm])
    simp [lookupD, hkv, ih hrest]

/-- Count-weighted sum of the entries whose key is `v`. -/
def weightAt (v : String) (g : List (String × Nat)) : Nat :=
  (g.map (fun p => if p.1 = v then p.2 else 0)).sum

theorem weightAt_cons (v : String) (p : String × Nat) (rest : List (String × Nat)) :
    weightAt v (p :: rest) = (if p.1 = v then p.2 else 0) + weightAt v rest := by
  simp [weightAt]

theorem weightAt_eq_lookupD (g : List (String × Nat)) (v : String)
    (h : (g.map Prod.fst).Nodup) : weightAt v g = lookupD g v := by
  induction g with
  | nil => rfl
  | cons q rest ih =>
    obtain ⟨k, n⟩ := q
    rw [List.map_cons, List.nodup_cons] at h
    rw [weightAt_cons]
    by_cases hv : k = v
    · have hz : weightAt v rest = 0 := by
        rw [ih h.2]
        exact lookupD_eq_zero_of_not_mem rest v (hv ▸ h.1)
      simp [lookupD, hv, hz]
    · simp [lookupD, hv, ih h.2]

theorem weightAt_perm (v : String) {g g' : List (String × Nat)} (h : g.Perm g') :
    weightAt v g = weightAt v g' := by
  unfold weightAt
  exact (h.map _).sum_eq

theorem lookupD_mergeCounts (g f : List (String × Nat)) (v : String) :
    lookupD (mergeCounts g f) v = lookupD g v + weightAt v f := by
  induction f generalizing g with
  | nil => simp [mergeCounts, weightAt]
  | cons p rest ih =>
    have : mergeCounts g (p :: rest) = mergeCounts (addCount g p) rest := rfl
    rw [this, ih, lookupD_addCount]
    simp [weightAt]
    omega

theorem sumCounts_mergeCounts (g f : List (String × Nat)) :
    sumCounts (mergeCounts g f) = sumCounts g + sumCounts f := by
  induction f generalizing g with
  | nil => simp [mergeCounts, sumCounts]
  | cons p rest ih =>
    have : mergeCounts g (p :: rest) = mergeCounts (addCount g p) rest := rfl
    rw [this, ih, sumCounts_addCount]
    simp [sumCounts]
    omega

theorem nodupKeys_mergeCounts (g f : List (String × Nat))
    (h : (g.map Prod.fst).Nodup) : ((mergeCounts g f).map Prod.fst).Nodup := by
  induction f generalizing g with
  | nil => exact h
  | cons p rest ih =>
    have : mergeCounts g (p :: rest) = mergeCounts (addCount g p) rest := rfl
    rw [this]
    exact ih _ (nodupKeys_addCount g p h)

theorem lookupD_tally (init : List (String × Nat)) (occs : List String) (v : String) :
    lookupD (tally init occs) v = lookupD init v + occs.count v := by
  induction occs generalizing init with
  | nil => simp [tally]
  | cons o rest ih =>
    have : tally init (o :: rest) = tally (addCount init (o, 1)) rest := rfl
    rw [this, ih, lookupD_addCount]
    by_cases h : o = v
    · subst h
      simp [List.count_cons]
      omega
    · have h' : ¬ v = o := fun hh => h hh.symm
      simp [List.count_cons, h, h']

theorem sumCounts_tally (init : List (String × Nat)) (occs : List String) :
    sumCounts (tally init occs) = sumCounts init + occs.length := by
  induction occs generalizing init with
  | nil => simp [tally]
  | cons o rest ih =>
    have : tally init (o :: rest) = tally (addCount init (o, 1)) rest := rfl
    rw [this, ih, sumCounts_addCount]
    simp [List.length_cons]
    omega

theorem nodupKeys_tally (init : List (String × Nat)) (occs : List String)
    (h : (init.map Prod.fst).Nodup) : ((tally init occs).map Prod.fst).Nodup := by
  induction occs generalizing init with
  | nil => exact h
  | cons o rest ih =>
    have : tally init (o :: rest) = tally (addCount init (o, 1)) rest := rfl
    rw [this]
    exact ih _ (nodupKeys_addCount init (o, 1) h)

theorem lookupD_scanPython (s : List Char) (v : String) :
    lookupD (scanPython s) v = (pyAllOccs s).count v := by
  simpa [lookupD] using lookupD_tally [] (pyAllOccs s) v

theorem lookupD_scanR (s : List Char) (v : String) :
    lookupD (scanR s) v = (rAllOccs s).count v := by
  simpa [lookupD] using lookupD_tally [] (rAllOccs s) v

theorem sumCounts_scanPython (s : List Char) :
    sumCounts (scanPython s) = (pyAllOccs s).length := by
  simpa [sumCounts] using sumCounts_tally [] (pyAllOccs s)

theorem sumCounts_scanR (s : List Char) :
    sumCounts (scanR s) = (rAllOccs s).length := by
  simpa [sumCounts] using sumCounts_tally [] (rAllOccs s)

theorem nodupKeys_scanPython (s : List Char) :
    ((scanPython s).map Prod.fst).Nodup :=
  nodupKeys_tally [] (pyAllOccs s) (by simp)

theorem nodupKeys_scanR (s : List Char) :
    ((scanR s).map Prod.fst).Nodup :=
  nodupKeys_tally [] (rAllOccs s) (by simp)

/-! ### Lemmas: the stable descending sort -/

theorem perm_insKey (key : α → Nat) (p : α) (l : List α) :
    (insKey key p l).Perm (p :: l) := by
  induction l with
  | nil => rfl
  | cons q qs ih =>
    by_cases h : key p < key q
    · simp only [insKey, if_pos h]
      exact (ih.cons q).trans (List.Perm.swap p q qs)
    · simp [insKey, if_neg h]

theorem perm_sortKeyDesc (key : α → Nat) (l : List α) :
    (sortKeyDesc key l).Perm l := by
  induction l with
  | nil => rfl
  | cons x xs ih => exact (perm_insKey key x (sortKeyDesc key xs)).trans (ih.cons x)

theorem pairwise_insKey (key : α → Nat) (p : α) (l : List α)
    (h : l.Pairwise (fun a b => key b ≤ key a)) :
    (insKey key p l).Pairwise (fun a b => key b ≤ key a) := by
  induction l with
  | nil => simp [insKey]
  | cons q qs ih =>
    rw [List.pairwise_cons] at h
    by_cases hlt : key p < key q
    · simp only [insKey, if_pos hlt]
      rw [List.pairwise_cons]
      refine ⟨?_, ih h.2⟩
      intro x hx
      rcases List.mem_cons.mp ((perm_insKey key p qs).mem_iff.mp hx) with hx1 | hx2
      · rw [hx1]
        exact Nat.le_of_lt hlt
      · exact h.1 x hx2
    · simp only [insKey, if_neg hlt]
      rw [List.pairwise_cons]
      refine ⟨?_, ?_⟩
      · intro x hx
        rcases List.mem_cons.mp hx with hx1 | hx2
        · rw [hx1]
          exact Nat.le_of_not_lt hlt
        · exact Nat.le_trans (h.1 x hx2) (Nat.le_of_not_lt hlt)
      · rw [List.pairwise_cons]
        exact h

theorem pairwise_sortKeyDesc (key : α → Nat) (l : List α) :
    (sortKeyDesc key l).Pairwise (fun a b => key b ≤ key a) := by
  induction l with
  | nil => simp [sortKeyDesc]
  | cons x xs ih => exact pairwise_insKey key x (sortKeyDesc key xs) ih

theorem filter_insKey (key : α → Nat) (p : α) (l : List α) (c : Nat) :
    (insKey key p l).filter (fun a => key a == c) =
      if key p = c then p :: l.filter (fun a => key a == c)
      else l.filter (fun a => key a == c) := by
  induction l with
  | nil =>
    by_cases h : key p = c <;> simp [insKey, List.filter_cons, h]
  | cons q qs ih =>
    by_cases hlt : key p < key q
    · simp only [insKey, if_pos hlt]
      by_cases hp : key p = c
      · have hq : ¬ key q = c := by omega
        simp [List.filter_cons, hp, hq, ih]
      · by_cases hq : key q = c <;> simp [List.filter_cons, hp, hq, ih]
    · simp only [insKey, if_neg hlt]
      by_cases hp : key p = c <;>
        by_cases hq : key q = c <;>
          simp [List.filter_cons, hp, hq]

theorem filter_sortKeyDesc (key : α → Nat) (l : List α) (c : Nat) :
    (sortKeyDesc key l).filter (fun a => key a == c) =
      l.filter (fun a => key a == c) := by
  induction l with
  | nil => rfl
  | cons x xs ih =>
    rw [sortKeyDesc, filter_insKey]
    by_cases h : key x = c <;> simp [List.filter_cons, h, ih]

theorem lookupD_perm {g g' : List (String × Nat)} (hp : g.Perm g')
    (h : (g.map Prod.fst).Nodup) (v : String) : lookupD g v = lookupD g' v := by
  have h' : (g'.map Prod.fst).Nodup := ((hp.map Prod.fst).nodup_iff).mp h
  rw [← weightAt_eq_lookupD g v h, ← weightAt_eq_lookupD g' v h']
  exact weightAt_perm v hp

theorem lookupD_sortedByCount (m : List (String × Nat)) (v : String)
    (h : (m.map Prod.fst).Nodup) : lookupD (sortedByCount m) v = lookupD m v :=
  (lookupD_perm (perm_sortKeyDesc _ m).symm h v).symm

theorem sumCounts_sortedByCount (m : List (String × Nat)) :
    sumCounts (sortedByCount m) = sumCounts m := by
  unfold sumCounts
  exact ((perm_sortKeyDesc _ m).map Prod.snd).sum_eq

/-! ### Lemmas: the aggregator fold -/

theorem foldl_analyzeStep_snd (analyze : Option (List Char) → List (String × Nat) × Bool)
    (files : List (String × Option (List Char))) (st : List (String × Nat) × List String) :
    (files.foldl (analyzeStep analyze) st).2 =
      st.2 ++ (files.filter (fun f => (analyze f.2).2)).map Prod.fst := by
  induction files generalizing st with
  | nil => simp
  | cons f fs ih =>
    rw [List.foldl_cons, ih]
    by_cases h : (analyze f.2).2 <;> simp [analyzeStep, h, List.filter_cons]

theorem foldl_analyzeStep_lookup (analyze : Option (List Char) → List (String × Nat) × Bool)
    (hnd : ∀ c, ((analyze c).1.map Prod.fst).Nodup)
    (files : List (String × Option (List Char))) (st : List (String × Nat) × List String)
    (v : String) :
    lookupD (files.foldl (analyzeStep analyze) st).1 v =
      lookupD st.1 v + (files.map (fun f => lookupD (analyze f.2).1 v)).sum := by
  induction files generalizing st with
  | nil => simp
  | cons f fs ih =>
    rw [List.foldl_cons, ih]
    have hstep : lookupD (analyzeStep analyze st f).1 v =
        lookupD st.1 v + lookupD (analyze f.2).1 v := by
      show lookupD (mergeCounts st.1 (analyze f.2).1) v = _
      rw [lookupD_mergeCounts, weightAt_eq_lookupD _ _ (hnd f.2)]
    rw [hstep]
    simp
    omega

theorem foldl_analyzeStep_sum (analyze : Option (List Char) → List (String × Nat) × Bool)
    (files : List (String × Option (List Char))) (st : List (String × Nat) × List String) :
    sumCounts (files.foldl (analyzeStep analyze) st).1 =
      sumCounts st.1 + (files.map (fun f => sumCounts (analyze f.2).1)).sum := by
  induction files generalizing st with
  | nil => simp
  | cons f fs ih =>
    rw [List.foldl_cons, ih]
    have hstep : sumCounts (analyzeStep analyze st f).1 =
        sumCounts st.1 + sumCounts (analyze f.2).1 := by
      show sumCounts (mergeCounts st.1 (analyze f.2).1) = _
      rw [sumCounts_mergeCounts]
    rw [hstep]
    simp
    omega

theorem nodupKeys_foldl (analyze : Option (List Char) → List (String × Nat) × Bool)
    (files : List (String × Option (List Char))) (st : List (String × Nat) × List String)
    (h : (st.1.map Prod.fst).Nodup) :
    ((files.foldl (analyzeStep analyze) st).1.map Prod.fst).Nodup := by
  induction files generalizing st with
  | nil => exact h
  | cons f fs ih =>
    rw [List.foldl_cons]
    exact ih _ (nodupKeys_mergeCounts _ _ h)

theorem foldState_filter (analyze : Option (List Char) → List (String × Nat) × Bool)
    (h0 : analyze none = ([], false))
    (files : List (String × Option (List Char))) (st : List (String × Nat) × List String) :
    files.foldl (analyzeStep analyze) st =
      (files.filter (fun f => f.2.isSome)).foldl (analyzeStep analyze) st := by
  induction files generalizing st with
  | nil => rfl
  | cons f fs ih =>
    rcases f with ⟨p, c⟩
    cases c with
    | none =>
      have hstep : analyzeStep analyze st (p, none) = st := by
        simp [analyzeStep, h0, mergeCounts]
      simp [List.filter_cons, List.foldl_cons, hstep, ih]
    | some s => simp [List.filter_cons, List.foldl_cons, ih]

theorem analyze_py_success (c : Option (List Char)) :
    (analyze_python_file c).2 = c.isSome := by
  cases c <;> rfl

theorem analyze_r_success (c : Option (List Char)) :
    (analyze_r_file c).2 = c.isSome := by
  cases c <;> rfl

theorem nodupKeys_analyze_py (c : Option (List Char)) :
    ((analyze_python_file c).1.map Prod.fst).Nodup := by
  cases c with
  | none => simp [analyze_python_file]
  | some s => exact nodupKeys_scanPython s

theorem nodupKeys_analyze_r (c : Option (List Char)) :
    ((analyze_r_file c).1.map Prod.fst).Nodup := by
  cases c with
  | none => simp [analyze_r_file]
  | some s => exact nodupKeys_scanR s

theorem sumCounts_analyze_py (c : Option (List Char)) :
    sumCounts (analyze_python_file c).1 = (pyFileOccs c).length := by
  cases c with
  | none => rfl
  | some s => exact sumCounts_scanPython s

theorem sumCounts_analyze_r (c : Option (List Char)) :
    sumCounts (analyze_r_file c).1 = (rFileOccs c).length := by
  cases c with
  | none => rfl
  | some s => exact sumCounts_scanR s

theorem sum_over_filter_isSome (files : List (String × Option (List Char)))
    (g : Option (List Char) → Nat) (hg : g none = 0) :
    ((files.filter (fun f => f.2.isSome)).map (fun f => g f.2)).sum =
      (files.map (fun f => g f.2)).sum := by
  induction files with
  | nil => rfl
  | cons f fs ih =>
    rcases f with ⟨p, c⟩
    cases c <;> simp [List.filter_cons, ih, hg]

theorem sum_filter_py (files : List (String × Option (List Char))) :
    ((files.filter (fun f => f.2.isSome)).map (fun f => (pyFileOccs f.2).length)).sum =
      (files.map (fun f => (pyFileOccs f.2).length)).sum :=
  sum_over_filter_isSome files (fun c => (pyFileOccs c).length) rfl

theorem sum_filter_r (files : List (String × Option (List Char))) :
    ((files.filter (fun f => f.2.isSome)).map (fun f => (rFileOccs f.2).length)).sum =
      (files.map (fun f => (rFileOccs f.2).length)).sum :=
  sum_over_filter_isSome files (fun c => (rFileOccs c).length) rfl

/-! ### Lemmas: scanning -/

theorem takeWhile_append_left (p : Char → Bool) (l1 l2 : List Char)
    (h : ∀ c ∈ l1, p c = true) :
    (l1 ++ l2).takeWhile p = l1 ++ l2.takeWhile p := by
  induction l1 with
  | nil => simp
  | cons c cs ih =>
    rw [List.cons_append, List.takeWhile_cons, if_pos (h c (List.mem_cons_self c cs)),
      ih (fun x hx => h x (List.mem_cons_of_mem c hx)), List.cons_append]

theorem dropWhile_append_left (p : Char → Bool) (l1 l2 : List Char)
    (h : ∀ c ∈ l1, p c = true) :
    (l1 ++ l2).dropWhile p = l2.dropWhile p := by
  induction l1 with
  | nil => simp
  | cons c cs ih =>
    rw [List.cons_append, List.dropWhile_cons, if_pos (h c (List.mem_cons_self c cs))]
    exact ih (fun x hx => h x (List.mem_cons_of_mem c hx))

theorem takeIdent_mem_rest {first cont : Char → Bool} {s v r : List Char}
    (h : takeIdent first cont s = some (v, r)) : ∀ x ∈ r, x ∈ s := by
  cases s with
  | nil => simp [takeIdent] at h
  | cons c cs =>
    by_cases hc : first c
    · simp [takeIdent, hc] at h
      intro x hx
      rw [← h.2] at hx
      exact List.mem_cons_of_mem c ((List.dropWhile_sublist cont).mem hx)
    · simp [takeIdent, hc] at h

theorem takeIdent_len {first cont : Char → Bool} {s v r : List Char}
    (h : takeIdent first cont s = some (v, r)) : r.length < s.length := by
  cases s with
  | nil => simp [takeIdent] at h
  | cons c cs =>
    by_cases hc : first c
    · simp [takeIdent, hc] at h
      rw [← h.2, List.length_cons]
      exact Nat.lt_succ_of_le (List.dropWhile_sublist cont).length_le
    · simp [takeIdent, hc] at h

theorem takeIdent_sum_len {first cont : Char → Bool} {t v r : List Char}
    (h : takeIdent first cont t = some (v, r)) : v.length + r.length = t.length := by
  cases t with
  | nil => simp [takeIdent] at h
  | cons c cs =>
    by_cases hc : first c
    · simp [takeIdent, hc] at h
      have hlen : (cs.takeWhile cont).length + (cs.dropWhile cont).length = cs.length := by
        conv_rhs => rw [← List.takeWhile_append_dropWhile cont cs]
        rw [List.length_append]
      rw [← h.1, ← h.2]
      simp [List.length_cons]
      omega
    · simp [takeIdent, hc] at h

theorem takeIdent_append {first cont : Char → Bool} (c : Char) (cs rest : List Char)
    (hc : first c = true) (hcs : ∀ x ∈ cs, cont x = true)
    (hrest : rest.takeWhile cont = []) :
    takeIdent first cont (c :: cs ++ rest) = some (c :: cs, rest) := by
  have hdrop : rest.dropWhile cont = rest := by
    have hh := List.takeWhile_append_dropWhile cont rest
    rw [hrest] at hh
    simpa using hh
  simp [takeIdent, hc, takeWhile_append_left cont cs rest hcs,
    dropWhile_append_left cont cs rest hcs, hrest, hdrop]

theorem scanAll_nil {α : Type} (m : List Char → Option (α × List Char)) (f : Nat) :
    scanAll m f [] = [] := by
  cases f <;> rfl

theorem scanAll_eq_nil {α : Type} {m : List Char → Option (α × List Char)} {s : List Char}
    (h : ∀ t, List.IsSuffix t s → m t = none) (f : Nat) : scanAll m f s = [] := by
  induction s generalizing f with
  | nil => exact scanAll_nil m f
  | cons c cs ih =>
    cases f with
    | zero => rfl
    | succ f' =>
      have hm : m (c :: cs) = none := h _ (List.suffix_refl _)
      simp only [scanAll, hm]
      exact ih (fun t ht => h t (ht.trans (List.suffix_cons c cs))) f'

theorem scanAll_eq_nil_of_not_mem {α : Type} {m : List Char → Option (α × List Char)}
    {ch : Char} (hneed : ∀ t p, m t = some p → ch ∈ t) {s : List Char}
    (habs : ch ∉ s) (f : Nat) : scanAll m f s = [] := by
  refine scanAll_eq_nil (fun t ht => ?_) f
  cases hm : m t with
  | none => rfl
  | some p => exact absurd (ht.subset (hneed t p hm)) habs

theorem scanAll_fuel {α : Type} {m : List Char → Option (α × List Char)}
    (hm : ∀ s p, m s = some p → p.2.length < s.length) :
    ∀ f g s, s.length ≤ f → s.length ≤ g → scanAll m f s = scanAll m g s := by
  intro f
  induction f with
  | zero =>
    intro g s hf hg
    have hs : s = [] := List.length_eq_zero.mp (Nat.le_zero.mp hf)
    subst hs
    rw [scanAll_nil, scanAll_nil]
  | succ f' ih =>
    intro g s hf hg
    cases s with
    | nil => rw [scanAll_nil, scanAll_nil]
    | cons c cs =>
      cases g with
      | zero => simp at hg
      | succ g' =>
        simp only [List.length_cons] at hf hg
        cases hmc : m (c :: cs) with
        | none =>
          simp only [scanAll, hmc]
          exact ih g' cs (Nat.le_of_succ_le_succ hf) (Nat.le_of_succ_le_succ hg)
        | some ar =>
          obtain ⟨a, r⟩ := ar
          have hr : r.length < cs.length + 1 := hm _ _ hmc
          simp only [scanAll, hmc]
          rw [ih g' r (by omega) (by omega)]

theorem scanAll_cons_match {α : Type} {m : List Char → Option (α × List Char)}
    (hm : ∀ s p, m s = some p → p.2.length < s.length)
    {s : List Char} {a : α} {r : List Char} (hmatch : m s = some (a, r))
    {f : Nat} (hf : s.length ≤ f) :
    scanAll m f s = a :: scanAll m r.length r := by
  have hr : r.length < s.length := hm _ _ hmatch
  cases s with
  | nil => simp at hr
  | cons c cs =>
    cases f with
    | zero => simp [List.length_cons] at hf
    | succ f' =>
      simp only [scanAll, hmatch]
      rw [scanAll_fuel hm f' r.length r
        (by simp only [List.length_cons] at hf hr; omega) (Nat.le_refl _)]

/-! ### Lemmas: character classes and identifiers -/

theorem pyStart_pyCont {c : Char} (h : pyStart c = true) : pyCont c = true := by
  simp only [pyStart, Bool.or_eq_true, decide_eq_true_eq] at h
  simp only [pyCont, Bool.or_eq_true, decide_eq_true_eq]
  rcases h with h1 | h1
  · exact Or.inl (Or.inl h1)
  · exact Or.inr h1

theorem rStart_rCont {c : Char} (h : rStart c = true) : rCont c = true := by
  simp only [rStart] at h
  simp only [rCont, Bool.or_eq_true]
  exact Or.inl (Or.inl (Or.inl h))

theorem isSpace_pyCont {c : Char} (h : isSpace c = true) : pyCont c = false := by
  simp only [isSpace, Bool.or_eq_true, decide_eq_true_eq] at h
  rcases h with ((((h1 | h1) | h1) | h1) | h1) | h1 <;> subst h1 <;> decide

theorem isSpace_rCont {c : Char} (h : isSpace c = true) : rCont c = false := by
  simp only [isSpace, Bool.or_eq_true, decide_eq_true_eq] at h
  rcases h with ((((h1 | h1) | h1) | h1) | h1) | h1 <;> subst h1 <;> decide

theorem not_space_of_pyCont {c : Char} (h : pyCont c = true) : isSpace c = false := by
  cases hs : isSpace c
  · rfl
  · rw [isSpace_pyCont hs] at h
    cases h

theorem not_space_of_rCont {c : Char} (h : rCont c = true) : isSpace c = false := by
  cases hs : isSpace c
  · rfl
  · rw [isSpace_rCont hs] at h
    cases h

theorem ne_of_pyCont {c : Char} (h : pyCont c = true) (d : Char)
    (hd : pyCont d = false) : c ≠ d := by
  intro he
  rw [he, hd] at h
  cases h

theorem ne_of_rCont {c : Char} (h : rCont c = true) (d : Char)
    (hd : rCont d = false) : c ≠ d := by
  intro he
  rw [he, hd] at h
  cases h

theorem validPyIdent_shape {id : List Char} (h : validPyIdent id = true) :
    ∃ c cs, id = c :: cs ∧ pyStart c = true ∧ ∀ x ∈ cs, pyCont x = true := by
  cases id with
  | nil => simp [validPyIdent] at h
  | cons c cs =>
    simp only [validPyIdent, Bool.and_eq_true, List.all_eq_true] at h
    exact ⟨c, cs, rfl, h.1, h.2⟩

theorem validRIdent_shape {id : List Char} (h : validRIdent id = true) :
    ∃ c cs, id = c :: cs ∧ rStart c = true ∧ ∀ x ∈ cs, rCont x = true := by
  cases id with
  | nil => simp [validRIdent] at h
  | cons c cs =>
    simp only [validRIdent, Bool.and_eq_true, List.all_eq_true] at h
    exact ⟨c, cs, rfl, h.1, h.2⟩

theorem validPyIdent_all_cont {id : List Char} (h : validPyIdent id = true) :
    ∀ x ∈ id, pyCont x = true := by
  obtain ⟨c, cs, hid, hc, hcs⟩ := validPyIdent_shape h
  subst hid
  intro x hx
  rcases List.mem_cons.mp hx with h1 | h1
  · exact h1 ▸ pyStart_pyCont hc
  · exact hcs x h1

theorem validRIdent_all_cont {id : List Char} (h : validRIdent id = true) :
    ∀ x ∈ id, rCont x = true := by
  obtain ⟨c, cs, hid, hc, hcs⟩ := validRIdent_shape h
  subst hid
  intro x hx
  rcases List.mem_cons.mp hx with h1 | h1
  · exact h1 ▸ rStart_rCont hc
  · exact hcs x h1

theorem not_mem_of_cont (cont : Char → Bool) {id : List Char}
    (hall : ∀ x ∈ id, cont x = true) {ch : Char} (hch : cont ch = false)
    {pre post : List Char} (hpre : ch ∉ pre) (hpost : ch ∉ post) :
    ch ∉ pre ++ id ++ post := by
  intro hmem
  rcases List.mem_append.mp hmem with h1 | h1
  · rcases List.mem_append.mp h1 with h2 | h2
    · exact hpre h2
    · have hc := hall ch h2
      rw [hch] at hc
      cases hc
  · exact hpost h1

/-! ### Lemmas: the individual matchers -/

theorem checkEqualsPy_mem (t r : List Char) (h : checkEqualsPy t = some r) :
    '=' ∈ t := by
  unfold checkEqualsPy at h
  split at h
  · cases h
  · simp
  · cases h

theorem checkWalrus_mem (t r : List Char) (h : checkWalrus t = some r) :
    ':' ∈ t := by
  unfold checkWalrus at h
  split at h
  · simp
  · cases h

theorem checkRAssign_mem (t r : List Char) (h : checkRAssign t = some r) :
    '<' ∈ t := by
  unfold checkRAssign at h
  split at h
  · simp
  · cases h

theorem checkEqualsR_mem (t r : List Char) (h : checkEqualsR t = some r) :
    '=' ∈ t := by
  unfold checkEqualsR at h
  split at h
  · simp
  · cases h

theorem matchAugOp_mem (t r : List Char) (h : matchAugOp t = some r) :
    '=' ∈ t := by
  unfold matchAugOp at h
  split at h
  · simp
  · simp
  · simp
  · simp
  · split at h
    · simp
    · cases h
  · cases h

theorem checkEqualsPy_len (t r : List Char) (h : checkEqualsPy t = some r) :
    r.length ≤ t.length := by
  unfold checkEqualsPy at h
  split at h
  · cases h
  · cases h
    simp
  · cases h

theorem checkWalrus_len (t r : List Char) (h : checkWalrus t = some r) :
    r.length ≤ t.length := by
  unfold checkWalrus at h
  split at h
  · cases h
    simp
    omega
  · cases h

theorem checkRAssign_len (t r : List Char) (h : checkRAssign t = some r) :
    r.length ≤ t.length := by
  unfold checkRAssign at h
  split at h
  · cases h
    simp
    omega
  · cases h

theorem checkEqualsR_len (t r : List Char) (h : checkEqualsR t = some r) :
    r.length ≤ t.length := by
  unfold checkEqualsR at h
  split at h
  · cases h
    simp
  · cases h

theorem matchAugOp_len (t r : List Char) (h : matchAugOp t = some r) :
    r.length ≤ t.length := by
  unfold matchAugOp at h
  split at h
  · cases h
    simp
    omega
  · cases h
    simp
    omega
  · cases h
    simp
    omega
  · cases h
    simp
    omega
  · split at h
    · cases h
      simp
      omega
    · cases h
  · cases h

theorem matchIdentThen_mem {first cont : Char → Bool}
    {check : List Char → Option (List Char)} {ch : Char}
    (hck : ∀ t r, check t = some r → ch ∈ t)
    {s : List Char} {p : String × List Char}
    (h : matchIdentThen first cont check s = some p) : ch ∈ s := by
  unfold matchIdentThen at h
  split at h
  · cases h
  next v r1 hti =>
    split at h
    next r hcc =>
      exact takeIdent_mem_rest hti ch ((List.dropWhile_sublist isSpace).mem (hck _ _ hcc))
    · cases h

theorem matchIdentThen_len {first cont : Char → Bool}
    {check : List Char → Option (List Char)}
    (hck : ∀ t r, check t = some r → r.length ≤ t.length) :
    ∀ (s : List Char) (p : String × List Char),
      matchIdentThen first cont check s = some p → p.2.length < s.length := by
  intro s p h
  unfold matchIdentThen at h
  split at h
  · cases h
  next v r1 hti =>
    split at h
    next r hcc =>
      cases h
      show r.length < s.length
      calc r.length ≤ (r1.dropWhile isSpace).length := hck _ _ hcc
        _ ≤ r1.length := (List.dropWhile_sublist isSpace).length_le
        _ < s.length := takeIdent_len hti
    · cases h

theorem multiReps_mem {f : Nat} {s : List Char} {acc vs : List String} {r2 : List Char}
    (h : multiReps f s acc = (vs, r2)) : ∀ x ∈ r2, x ∈ s := by
  induction f generalizing s acc with
  | zero =>
    simp only [multiReps] at h
    cases h
    exact fun x hx => hx
  | succ f ih =>
    unfold multiReps at h
    split at h
    next s2 heq =>
      split at h
      next v r hti =>
        intro x hx
        have hx1 := ih h x hx
        have hx2 : x ∈ s2.dropWhile isSpace := takeIdent_mem_rest hti x hx1
        have hx3 : x ∈ (',' :: s2) :=
          List.mem_cons_of_mem ',' ((List.dropWhile_sublist isSpace).mem hx2)
        rw [← heq] at hx3
        exact (List.dropWhile_sublist isSpace).mem hx3
      next hti =>
        cases h
        exact fun x hx => hx
    next heq =>
      cases h
      exact fun x hx => hx

theorem matchMulti_mem {s : List Char} {p : List String × List Char}
    (h : matchMulti s = some p) : '=' ∈ s := by
  unfold matchMulti at h
  split at h
  · cases h
  next v r1 hti =>
    by_cases he : (multiReps r1.length r1 []).1.isEmpty
    · rw [if_pos he] at h
      cases h
    · rw [if_neg he] at h
      split at h
      next r3 heq =>
        have h1 : '=' ∈ (multiReps r1.length r1 []).2.dropWhile isSpace := by
          rw [heq]
          simp
        have h2 := (List.dropWhile_sublist isSpace).mem h1
        have h3 : '=' ∈ r1 := multiReps_mem rfl '=' h2
        exact takeIdent_mem_rest hti '=' h3
      · cases h

theorem forBacktrack_len {idRev rest : List Char} {v : String} {r : List Char}
    (h : forBacktrack idRev rest = some (v, r)) :
    r.length < idRev.length + rest.length := by
  induction idRev generalizing rest v r with
  | nil => simp [forBacktrack] at h
  | cons c idRev ih =>
    unfold forBacktrack at h
    split at h
    next r1 heq =>
      cases h
      have hle : ('i' :: 'n' :: r).length ≤ rest.length := by
        rw [← heq]
        exact (List.dropWhile_sublist isSpace).length_le
      simp only [List.length_cons] at hle ⊢
      omega
    next heq =>
      have hr := ih h
      simp only [List.length_cons] at hr ⊢
      omega

theorem matchFor_len : ∀ (s : List Char) (p : String × List Char),
    matchFor s = some p → p.2.length < s.length := by
  intro s p h
  unfold matchFor at h
  split at h
  next s' =>
    cases hti : takeIdent pyStart pyCont (s'.dropWhile isSpace) with
    | none => rw [hti] at h; cases h
    | some vr =>
      obtain ⟨v, r1⟩ := vr
      rw [hti] at h
      simp only [] at h
      obtain ⟨pv, pr⟩ := p
      have hb := forBacktrack_len h
      have hsum : v.length + r1.length = (s'.dropWhile isSpace).length :=
        takeIdent_sum_len hti
      have hd : (s'.dropWhile isSpace).length ≤ s'.length :=
        (List.dropWhile_sublist isSpace).length_le
      rw [List.length_reverse] at hb
      simp only [List.length_cons]
      omega
  · cases h

theorem matchMutate_len : ∀ (s : List Char) (p : List Char × List Char),
    matchMutate s = some p → p.2.length < s.length := by
  intro s p h
  unfold matchMutate at h
  split at h
  next s' =>
    split at h
    next s2 heq =>
      split at h
      next r heq2 =>
        cases h
        have h1 : (')' :: r).length ≤ s2.length := by
          rw [← heq2]
          exact (List.dropWhile_sublist _).length_le
        have h2 : ('(' :: s2).length ≤ s'.length := by
          rw [← heq]
          exact (List.dropWhile_sublist isSpace).length_le
        simp only [List.length_cons] at h1 h2 ⊢
        omega
      · cases h
    · cases h
  · cases h

/-! ### Lemmas: whole-rule results on symbolic buffers -/

theorem pyEqualsOccs_nil {s : List Char} (h : '=' ∉ s) : pyEqualsOccs s = [] := by
  unfold pyEqualsOccs
  rw [@scanAll_eq_nil_of_not_mem String matchEqualsPy '='
    (fun _ _ hm => matchIdentThen_mem checkEqualsPy_mem hm) s h s.length]
  rfl

theorem pyWalrusOccs_nil {s : List Char} (h : ':' ∉ s) : pyWalrusOccs s = [] :=
  @scanAll_eq_nil_of_not_mem String matchWalrusPy ':'
    (fun _ _ hm => matchIdentThen_mem checkWalrus_mem hm) s h s.length

theorem pyMultiOccs_nil {s : List Char} (h : '=' ∉ s) : pyMultiOccs s = [] := by
  unfold pyMultiOccs
  rw [@scanAll_eq_nil_of_not_mem (List String) matchMulti '='
    (fun _ _ hm => matchMulti_mem hm) s h s.length]
  rfl

theorem pyAugOccs_nil {s : List Char} (h : '=' ∉ s) : pyAugOccs s = [] :=
  @scanAll_eq_nil_of_not_mem String matchAug '='
    (fun _ _ hm => matchIdentThen_mem matchAugOp_mem hm) s h s.length

theorem rAssignOccs_nil {s : List Char} (h : '<' ∉ s) : rAssignOccs s = [] :=
  @scanAll_eq_nil_of_not_mem String matchRAssign '<'
    (fun _ _ hm => matchIdentThen_mem checkRAssign_mem hm) s h s.length

theorem rWalrusOccs_nil {s : List Char} (h : ':' ∉ s) : rWalrusOccs s = [] :=
  @scanAll_eq_nil_of_not_mem String matchWalrusR ':'
    (fun _ _ hm => matchIdentThen_mem checkWalrus_mem hm) s h s.length

theorem matchFor_pos {id : List Char} (h : validPyIdent id = true) :
    matchFor ("for ".toList ++ id ++ " in xs".toList) =
      some (id.asString, " xs".toList) := by
  obtain ⟨c, cs, hid, hc, hcs⟩ := validPyIdent_shape h
  subst hid
  have hsp : isSpace c = false := not_space_of_pyCont (pyStart_pyCont hc)
  have hdw : (' ' :: (c :: cs ++ " in xs".toList)).dropWhile isSpace
      = c :: cs ++ " in xs".toList := by
    rw [List.dropWhile_cons, if_pos (by decide), List.cons_append, List.dropWhile_cons]
    rw [if_neg (by simp [hsp]), ← List.cons_append]
  have hti := takeIdent_append c cs (" in xs".toList) hc hcs (by decide)
  show matchFor ('f' :: 'o' :: 'r' :: ' ' :: (c :: cs ++ " in xs".toList)) = _
  simp only [matchFor]
  rw [hdw, hti]
  show forBacktrack (c :: cs).reverse (" in xs".toList)
      = some ((c :: cs).asString, " xs".toList)
  cases hrev : (c :: cs).reverse with
  | nil => simp at hrev
  | cons d ds =>
    show some ((d :: ds).reverse.asString, " xs".toList) = _
    rw [← hrev, List.reverse_reverse]

theorem pyForOccs_pos {id : List Char} (h : validPyIdent id = true) :
    pyForOccs ("for ".toList ++ id ++ " in xs".toList) = [id.asString] := by
  unfold pyForOccs
  rw [scanAll_cons_match matchFor_len (matchFor_pos h) (Nat.le_refl _)]
  rfl

theorem matchMutate_pos {id : List Char} (hall : ∀ x ∈ id, rCont x = true) :
    matchMutate ("mutate(".toList ++ id ++ " == e)".toList) =
      some (id ++ " == e".toList, []) := by
  have hne : ∀ x ∈ id, (x != ')') = true := by
    intro x hx
    simp only [bne_iff_ne, ne_eq]
    exact ne_of_rCont (hall x hx) ')' (by decide)
  have hstep : matchMutate ('m' :: 'u' :: 't' :: 'a' :: 't' :: 'e' :: '(' ::
        (id ++ " == e)".toList))
      = (match (id ++ " == e)".toList).dropWhile (fun c => c != ')') with
         | ')' :: r => some ((id ++ " == e)".toList).takeWhile (fun c => c != ')'), r)
         | _ => none) := rfl
  have hdrop : (id ++ " == e)".toList).dropWhile (fun c => c != ')') = [')'] := by
    rw [dropWhile_append_left _ _ _ hne]
    decide
  have htake : (id ++ " == e)".toList).takeWhile (fun c => c != ')')
      = id ++ " == e".toList := by
    rw [takeWhile_append_left _ _ _ hne]
    rfl
  show matchMutate ('m' :: 'u' :: 't' :: 'a' :: 't' :: 'e' :: '(' ::
      (id ++ " == e)".toList)) = _
  rw [hstep, hdrop, htake]
  rfl

theorem mutateContents_pos {id : List Char} (hall : ∀ x ∈ id, rCont x = true) :
    mutateContents ("mutate(".toList ++ id ++ " == e)".toList)
      = [id ++ " == e".toList] := by
  unfold mutateContents
  rw [scanAll_cons_match matchMutate_len (matchMutate_pos hall) (Nat.le_refl _)]
  rfl

theorem matchEqualsR_pos {id : List Char} (h : validRIdent id = true) :
    matchEqualsR (id ++ " == e".toList) = some (id.asString, "= e".toList) := by
  obtain ⟨c, cs, hid, hc, hcs⟩ := validRIdent_shape h
  subst hid
  have hti := takeIdent_append c cs (" == e".toList) hc hcs (by decide)
  show matchIdentThen rStart rCont checkEqualsR (c :: cs ++ " == e".toList) = _
  unfold matchIdentThen
  rw [hti]
  rfl

theorem matchEqualsR_len : ∀ (s : List Char) (p : String × List Char),
    matchEqualsR s = some p → p.2.length < s.length :=
  matchIdentThen_len checkEqualsR_len

theorem rEqualsOccs_pos {id : List Char} (h : validRIdent id = true) :
    rEqualsOccs (id ++ " == e".toList) = [id.asString] := by
  unfold rEqualsOccs
  rw [scanAll_cons_match matchEqualsR_len (matchEqualsR_pos h) (Nat.le_refl _)]
  rfl

/-! ### Claim theorems -/

/-- C1, counterexample: in the first language the buffer `a, b, c = 1, 2, 3`
gives `c` a total of two occurrences (one from the multi-target rule and one
from the simple-assignment rule, whose pattern also matches `c =`), so the
claim that every listed identifier gets exactly one occurrence is false. -/
theorem multiTarget_last_ident_double :
    lookupD (scanPython ("a, b, c = 1, 2, 3".toList)) "c" = 2 := by decide

/-- C1, amended: for the first language, scanning `a, b, c = 1, 2, 3` yields
one occurrence each for `a` and `b`, two occurrences for `c` (the trailing
target also matches the simple-assignment rule), and zero occurrences for
every right-hand-side token. -/
theorem multiTarget_counts_corrected :
    scanPython ("a, b, c = 1, 2, 3".toList) = [("c", 2), ("a", 1), ("b", 1)] := by
  decide

/-- C3, counterexample: for the second language a buffer whose whole content
is `x = 1`, outside any mutate call, yields zero counted occurrences of `x`
(the equals pattern is applied only inside `mutate(...)` argument lists), so
the claim is false for the second language. -/
theorem simpleAssign_r_not_whole_buffer :
    lookupD (scanR ("x = 1".toList)) "x" = 0 := by decide

/-- C3, amended: the simple-assignment rule is applied to the entire buffer
only for the first language, where `x = 1` yields one occurrence of `x`; for
the second language the equals rule runs only inside mutate argument lists,
so a buffer whose whole content is `x = 1` yields no occurrence at all. -/
theorem simpleAssign_scope_corrected :
    scanPython ("x = 1".toList) = [("x", 1)] ∧ scanR ("x = 1".toList) = [] := by
  constructor <;> decide

/-- C9: for the second language, scanning a buffer whose content is
`mutate(x = y + 1, z = 2)` yields exactly the mapping `x ↦ 1, z ↦ 1`; each
keyword-argument binding inside the mutate argument list counts once for the
bound identifier and right-hand-side identifiers such as `y` are not
counted. -/
theorem mutate_keyword_args_counted :
    scanR ("mutate(x = y + 1, z = 2)".toList) = [("x", 1), ("z", 1)] := by
  decide

/-- C4: for every identifier, its global count over one language pass equals
the exact sum of its counts in the per-file local mappings, and the sum of
all counts in the Per-Language Ranking equals the total number of matched
occurrences across all processed files of that language (both languages). -/
theorem global_count_sum_ranking_total
    (files : List (String × Option (List Char))) (v : String) :
    (lookupD (count_variables_py files).1 v =
        (files.map (fun f => lookupD (analyze_python_file f.2).1 v)).sum
      ∧ sumCounts (count_variables_py files).1 =
        ((files.filter (fun f => f.2.isSome)).map
          (fun f => (pyFileOccs f.2).length)).sum)
    ∧
    (lookupD (count_variables_r files).1 v =
        (files.map (fun f => lookupD (analyze_r_file f.2).1 v)).sum
      ∧ sumCounts (count_variables_r files).1 =
        ((files.filter (fun f => f.2.isSome)).map
          (fun f => (rFileOccs f.2).length)).sum) := by
  refine ⟨⟨?_, ?_⟩, ?_, ?_⟩
  · show lookupD (sortedByCount (foldState analyze_python_file files).1) v = _
    simp only [foldState]
    rw [lookupD_sortedByCount _ _
      (nodupKeys_foldl analyze_python_file files ([], []) (by simp))]
    rw [foldl_analyzeStep_lookup analyze_python_file nodupKeys_analyze_py files ([], []) v]
    simp [lookupD]
  · show sumCounts (sortedByCount (foldState analyze_python_file files).1) = _
    rw [sumCounts_sortedByCount]
    simp only [foldState]
    rw [foldl_analyzeStep_sum analyze_python_file files ([], [])]
    simp only [sumCounts_analyze_py]
    rw [sum_filter_py files]
    simp [sumCounts]
  · show lookupD (sortedByCount (foldState analyze_r_file files).1) v = _
    simp only [foldState]
    rw [lookupD_sortedByCount _ _
      (nodupKeys_foldl analyze_r_file files ([], []) (by simp))]
    rw [foldl_analyzeStep_lookup analyze_r_file nodupKeys_analyze_r files ([], []) v]
    simp [lookupD]
  · show sumCounts (sortedByCount (foldState analyze_r_file files).1) = _
    rw [sumCounts_sortedByCount]
    simp only [foldState]
    rw [foldl_analyzeStep_sum analyze_r_file files ([], [])]
    simp only [sumCounts_analyze_r]
    rw [sum_filter_r files]
    simp [sumCounts]

/-- C5: every Per-Language Ranking is sorted by count descending (every
earlier entry's count is at least every later one's, so adjacent entries with
different counts strictly decrease), it is a permutation of the folded global
mapping, and the sort is stable: for every count value, the entries carrying
that count appear in exactly their insertion order in the folded global
mapping (both languages). -/
theorem ranking_sorted_descending_stable (files : List (String × Option (List Char))) :
    ((count_variables_py files).1.Pairwise (fun a b => b.2 ≤ a.2)
      ∧ (count_variables_py files).1.Perm (foldState analyze_python_file files).1
      ∧ ∀ c : Nat, (count_variables_py files).1.filter (fun p => p.2 == c)
          = (foldState analyze_python_file files).1.filter (fun p => p.2 == c))
    ∧
    ((count_variables_r files).1.Pairwise (fun a b => b.2 ≤ a.2)
      ∧ (count_variables_r files).1.Perm (foldState analyze_r_file files).1
      ∧ ∀ c : Nat, (count_variables_r files).1.filter (fun p => p.2 == c)
          = (foldState analyze_r_file files).1.filter (fun p => p.2 == c)) := by
  refine ⟨⟨?_, ?_, ?_⟩, ?_, ?_, ?_⟩
  · exact pairwise_sortKeyDesc (fun p => p.2) (foldState analyze_python_file files).1
  · exact perm_sortKeyDesc (fun p => p.2) (foldState analyze_python_file files).1
  · intro c
    exact filter_sortKeyDesc (fun p => p.2) (foldState analyze_python_file files).1 c
  · exact pairwise_sortKeyDesc (fun p => p.2) (foldState analyze_r_file files).1
  · exact perm_sortKeyDesc (fun p => p.2) (foldState analyze_r_file files).1
  · intro c
    exact filter_sortKeyDesc (fun p => p.2) (foldState analyze_r_file files).1 c

/-- C7: a failed file read yields an empty local mapping with a false success
flag and does not raise; the file is excluded from the Processed-File List
(which contains exactly the successfully read files, in traversal order, so
the scan of the remaining files continues) and contributes nothing to the
ranking (both languages). -/
theorem read_failure_isolation (files : List (String × Option (List Char))) :
    analyze_python_file none = ([], false)
  ∧ analyze_r_file none = ([], false)
  ∧ (count_variables_py files).2 = (files.filter (fun f => f.2.isSome)).map Prod.fst
  ∧ (count_variables_r files).2 = (files.filter (fun f => f.2.isSome)).map Prod.fst
  ∧ (count_variables_py files).1 =
      (count_variables_py (files.filter (fun f => f.2.isSome))).1
  ∧ (count_variables_r files).1 =
      (count_variables_r (files.filter (fun f => f.2.isSome))).1 := by
  refine ⟨rfl, rfl, ?_, ?_, ?_, ?_⟩
  · show (foldState analyze_python_file files).2 = _
    simp only [foldState]
    rw [foldl_analyzeStep_snd]
    simp [analyze_py_success]
  · show (foldState analyze_r_file files).2 = _
    simp only [foldState]
    rw [foldl_analyzeStep_snd]
    simp [analyze_r_success]
  · show sortedByCount (foldState analyze_python_file files).1 = _
    simp only [foldState]
    rw [foldState_filter analyze_python_file rfl files ([], [])]
    rfl
  · show sortedByCount (foldState analyze_r_file files).1 = _
    simp only [foldState]
    rw [foldState_filter analyze_r_file rfl files ([], [])]
    rfl

/-- C8: for the first language's simple-assignment rule, every identifier of
the fixed keyword denylist contributes zero occurrences under that rule on
any buffer, even when it appears there followed by a bare `=` that is not
part of `==`. -/
theorem denylist_zero_occurrences (content : List Char) (kw : String)
    (h : kw ∈ pyDenylist) : (pyEqualsOccs content).count kw = 0 := by
  rw [List.count_eq_zero]
  intro hmem
  rw [pyEqualsOccs, List.mem_filter] at hmem
  have h2 := hmem.2
  simp at h2
  exact h2 h

/-- C8 witness: `if` is in the denylist, and on the buffer `if = 3` (a bare
`=` after the keyword) the simple-assignment rule still counts no occurrence
of `if`. -/
theorem denylist_zero_occurrences_witness :
    "if" ∈ pyDenylist ∧ (pyEqualsOccs ("if = 3".toList)).count "if" = 0 :=
  ⟨by decide, denylist_zero_occurrences ("if = 3".toList) "if" (by decide)⟩

theorem filter_beq_of_nodup (l : List String) (a : String) (hnd : l.Nodup)
    (ha : a ∈ l) : l.filter (fun x => x == a) = [a] := by
  induction l with
  | nil => cases ha
  | cons b bs ih =>
    rw [List.nodup_cons] at hnd
    rcases List.mem_cons.mp ha with h1 | h2
    · have hnone : bs.filter (fun x => x == a) = [] := by
        rw [List.filter_eq_nil_iff]
        intro x hx
        simp
        intro he
        exact hnd.1 (h1 ▸ he ▸ hx)
      simp [List.filter_cons, h1.symm, hnone]
    · have hba : ¬ b = a := by
        intro he
        exact hnd.1 (he ▸ h2)
      simp [List.filter_cons, hba, ih hnd.2 h2]

/-- C6: for every identifier present in both per-language rankings, the
shared-variable extraction (for any iteration order of the Python set that
enumerates the intersection exactly once) emits exactly one record, whose two
counts are the global-mapping lookups for that identifier, and the resulting
sequence is sorted by the sum of the two counts, descending. -/
theorem shared_variables_records (py r : List (String × Nat)) (order : List String)
    (hnd : order.Nodup)
    (hmem : ∀ v : String, v ∈ order ↔ (v ∈ py.map Prod.fst ∧ v ∈ r.map Prod.fst)) :
    (∀ v, v ∈ py.map Prod.fst → v ∈ r.map Prod.fst →
      (find_shared_variables py r order).filter (fun t => t.1 == v)
        = [(v, lookupD py v, lookupD r v)])
    ∧ (find_shared_variables py r order).Pairwise
        (fun x y => y.2.1 + y.2.2 ≤ x.2.1 + x.2.2) := by
  constructor
  · intro v hpy hr
    have hv : v ∈ order := (hmem v).mpr ⟨hpy, hr⟩
    have hperm : (find_shared_variables py r order).Perm
        (order.map (fun u => (u, lookupD py u, lookupD r u))) :=
      perm_sortKeyDesc _ _
    have hfil : ((order.map (fun u => (u, lookupD py u, lookupD r u))).filter
        (fun t => t.1 == v)) = [(v, lookupD py v, lookupD r v)] := by
      rw [List.filter_map]
      have hcomp : ((fun t : String × Nat × Nat => t.1 == v) ∘
          (fun u => (u, lookupD py u, lookupD r u))) = fun u => u == v := rfl
      rw [hcomp, filter_beq_of_nodup order v hnd hv]
      rfl
    have hp := hperm.filter (fun t => t.1 == v)
    rw [hfil] at hp
    exact List.perm_singleton.mp hp
  · exact pairwise_sortKeyDesc _ _

/-- C2, counterexample: the second language's pattern set has no loop-binding
rule — scanning the buffer `for i in xs`, where `i` immediately follows the
loop-introduction keyword and precedes the membership keyword, yields zero
occurrences of `i`, so the claim fails for the second language. -/
theorem loopBinding_r_missing :
    lookupD (scanR ("for i in xs".toList)) "i" = 0 := by decide

/-- C2, amended: only the first language's pattern set includes a loop-binding
rule: for every valid identifier, scanning the buffer `for <id> in xs` in the
first language counts exactly one occurrence of that identifier (and nothing
else), while the same buffer shape in the second language (shown for `i`)
yields no occurrence at all. -/
theorem loopBinding_only_python (id : List Char) (h : validPyIdent id = true) :
    scanPython ("for ".toList ++ id ++ " in xs".toList) = [(id.asString, 1)]
    ∧ scanR ("for i in xs".toList) = [] := by
  constructor
  · have hallc := validPyIdent_all_cont h
    have hEq : '=' ∉ "for ".toList ++ id ++ " in xs".toList :=
      not_mem_of_cont pyCont hallc (by decide) (by decide) (by decide)
    have hCol : ':' ∉ "for ".toList ++ id ++ " in xs".toList :=
      not_mem_of_cont pyCont hallc (by decide) (by decide) (by decide)
    unfold scanPython pyAllOccs
    rw [pyEqualsOccs_nil hEq, pyWalrusOccs_nil hCol, pyMultiOccs_nil hEq,
      pyAugOccs_nil hEq, pyForOccs_pos h]
    rfl
  · decide

/-- C2 witness: the loop-binding behaviour at the concrete identifier `i`. -/
theorem loopBinding_only_python_witness :
    validPyIdent ("i".toList) = true
    ∧ (scanPython ("for ".toList ++ "i".toList ++ " in xs".toList) = [("i", 1)]
        ∧ scanR ("for i in xs".toList) = []) :=
  ⟨by decide, loopBinding_only_python ("i".toList) (by decide)⟩

/-- C10: for the second language, the equals pattern applied inside a
`mutate(...)` argument list has no lookahead excluding `==`, so for every
valid identifier the buffer `mutate(<id> == e)` counts the equality
comparison as one assignment occurrence of that identifier. -/
theorem mutate_equality_counted (id : List Char) (h : validRIdent id = true) :
    scanR ("mutate(".toList ++ id ++ " == e)".toList) = [(id.asString, 1)] := by
  have hall := validRIdent_all_cont h
  have hLt : '<' ∉ "mutate(".toList ++ id ++ " == e)".toList :=
    not_mem_of_cont rCont hall (by decide) (by decide) (by decide)
  have hCol : ':' ∉ "mutate(".toList ++ id ++ " == e)".toList :=
    not_mem_of_cont rCont hall (by decide) (by decide) (by decide)
  unfold scanR rAllOccs
  rw [rAssignOccs_nil hLt, rWalrusOccs_nil hCol, mutateContents_pos hall,
    List.map_cons, rEqualsOccs_pos h]
  rfl

/-- C10 witness: the equality-inside-mutate behaviour at the concrete
identifier `q`. -/
theorem mutate_equality_counted_witness :
    validRIdent ("q".toList) = true
    ∧ scanR ("mutate(".toList ++ "q".toList ++ " == e)".toList) = [("q", 1)] :=
  ⟨by decide, mutate_equality_counted ("q".toList) (by decide)⟩

/-- C6 witness: with rankings `[(x, 2)]` and `[(x, 3)]` and the single-element
intersection order `[x]`, the extraction emits exactly the record `(x, 2, 3)`
and the output is sorted by total descending. -/
theorem shared_variables_records_witness :
    ((find_shared_variables [("x", 2)] [("x", 3)] ["x"]).filter
        (fun t => t.1 == "x") = [("x", 2, 3)])
    ∧ (find_shared_variables [("x", 2)] [("x", 3)] ["x"]).Pairwise
        (fun x y => y.2.1 + y.2.2 ≤ x.2.1 + x.2.2) := by
  have h := shared_variables_records [("x", 2)] [("x", 3)] ["x"] (by decide)
    (by intro v; simp)
  refine ⟨?_, h.2⟩
  rw [h.1 "x" (by decide) (by decide)]
  decide

end VarFreq
